import Mathlib

/-! A verification development for the Information Sieve (`sieve.py`): the
layering and orchestration logic that stacks a Factor Extractor (CorEx) and
per-variable Remainder Models into layers, grows the stack greedily, and
transforms/inverts/predicts through the stack.  Matrices are embedded as
lists of rows of integer codes; negative entries denote missing values.
The two collaborators (CorEx, Remainder) are external to the orchestration
source and are embedded as abstract function records following their
contracts. -/

abbrev Mat := List (List ℤ)

/-- Modelled from the spec: the external Remainder Model contract
(`remainder.Remainder` is outside the orchestration source).  `transform`
maps one variable value and one label to a residual code, per sample;
`predict` maps a label and a residual code back to a reconstructed value;
`mi` and `h` are its mutual-information and entropy statistics. -/
structure Remainder where
  transform : ℤ → ℤ → ℤ
  predict : ℤ → ℤ → ℤ
  mi : ℚ
  h : ℚ

/-- Modelled from the spec: the external Factor Extractor contract
(`corex.Corex`).  `transform` produces one label per sample of a matrix;
`tc` is the factor's total-correlation estimate. -/
structure Corex where
  transform : Mat → List ℤ
  tc : ℚ

/-- One layer of the sieve: a fitted extractor, its training labels, and one
Remainder Model per input variable (`SieveLayer.__init__` stores these). -/
structure SieveLayer where
  corex : Corex
  labels : List ℤ
  remainders : List Remainder

/-- `SieveLayer.transform`: labels from the extractor; per variable `i` the
residual code `remainders[i].transform(x[:, i], labels)`; output is the
residual matrix with the label appended as the last column
(`np.hstack([xr, labels[:, np.newaxis]])`), written row-wise. -/
def SieveLayer.transform (L : SieveLayer) (x : Mat) : Mat :=
  let labs := L.corex.transform x
  (x.zip labs).map fun p =>
    (List.zipWith (fun r v => r.transform v p.2) L.remainders p.1) ++ [p.2]

/-- `SieveLayer.invert`: take the trailing label column `ys = xr[:, -1]`;
for each remaining column `i`, `remainders[i].predict(ys, xr[:, i])`. -/
def SieveLayer.invert (L : SieveLayer) (xr : Mat) : Mat :=
  xr.map fun row =>
    List.zipWith (fun r v => r.predict (row.getD (row.length - 1) 0) v)
      L.remainders row.dropLast

/-- `SieveLayer.lb`: `sum(r.mi for r in self.remainders)`. -/
def SieveLayer.lb (L : SieveLayer) : ℚ := (L.remainders.map Remainder.mi).sum

/-- `SieveLayer.ub`: `sum(2 * r.h for r in self.remainders)`. -/
def SieveLayer.ub (L : SieveLayer) : ℚ := (L.remainders.map (fun r => 2 * r.h)).sum

/-- The sieve: `max_layers`, the ordered layer list, and the running
per-variable value histograms `x_stats`. -/
structure Sieve where
  max_layers : ℕ
  layers : List SieveLayer
  x_stats : List (List ℕ)

/-- `x_out[:, -1:]`: the last column of a matrix, kept as a one-column matrix. -/
def lastCol (m : Mat) : Mat := m.map fun row => row.drop (row.length - 1)

/-- The label-accumulation step of `Sieve.transform`: with no previous labels
the labels are just `x_out[:, -1:]`, otherwise
`np.hstack([prev_labels, x_out[:, -1:]])`. -/
def pushLabels (prev : Option Mat) (out : Mat) : Mat :=
  match prev with
  | none => lastCol out
  | some p => List.zipWith (· ++ ·) p (lastCol out)

/-- `Sieve.transform(x, layer, prev_labels)`: index `self.layers[layer]`
(`none` embeds the `IndexError` on an out-of-range index), transform through
it, accumulate the trailing label column, and at the deepest layer return
`(x_out, labels)`; otherwise recurse on the full `x_out` at `layer + 1`. -/
def transformAux (layers : List SieveLayer) (x : Mat) (layer : ℕ) (prev : Option Mat) :
    Option (Mat × Mat) :=
  match h : layers[layer]? with
  | none => none
  | some L =>
    let out := L.transform x
    let labs := pushLabels prev out
    if layer = layers.length - 1 then some (out, labs)
    else transformAux layers out (layer + 1) (some labs)
termination_by layers.length - layer
decreasing_by
  have hlt : layer < layers.length := by
    by_contra hge
    rw [List.getElem?_eq_none (Nat.le_of_not_lt hge)] at h
    cases h
  omega

/-- The public entry point `Sieve.transform(x)` (defaults `layer=0`,
`prev_labels=None`). -/
def Sieve.transform (s : Sieve) (x : Mat) : Option (Mat × Mat) :=
  transformAux s.layers x 0 none

/-- `Sieve.invert(x, layer)`: at layer 0 return `layers[0].invert(x)`;
otherwise invert through `layers[layer]` and recurse at `layer - 1`.
`none` embeds the `IndexError` on an out-of-range layer index. -/
def invertAux (layers : List SieveLayer) (x : Mat) : ℕ → Option Mat
  | 0 => (layers[0]?).map fun L => L.invert x
  | k+1 =>
    match layers[k+1]? with
    | none => none
    | some L => invertAux layers (L.invert x) k

/-- The public entry point `Sieve.invert(x)` with the default
`layer = len(self.layers) - 1`. -/
def Sieve.invert (s : Sieve) (x : Mat) : Option Mat :=
  invertAux s.layers x (s.layers.length - 1)

/-- `np.array(list_of_rows).T` for a rectangular stack of rows (used by the
`labels` property); on an empty stack numpy yields an empty array. -/
def transposeArr (m : Mat) : Mat :=
  match m with
  | [] => []
  | r :: _ => (List.range r.length).map fun j => m.map fun row => row.getD j 0

/-- The `Sieve.labels` property:
`np.array([layer.labels for layer in self.layers]).T`. -/
def Sieve.labels (s : Sieve) : Mat := transposeArr (s.layers.map SieveLayer.labels)

/-- `Sieve.lb`: `sum(layer.lb for layer in self.layers)`. -/
def Sieve.lb (s : Sieve) : ℚ := (s.layers.map SieveLayer.lb).sum

/-- `Sieve.ub`: `sum(layer.ub for layer in self.layers)`. -/
def Sieve.ub (s : Sieve) : ℚ := (s.layers.map SieveLayer.ub).sum

/-- `Sieve.tcs`: per-layer total-correlation estimates. -/
def Sieve.tcs (s : Sieve) : List ℚ := s.layers.map fun L => L.corex.tc

/-- `Sieve.tc`: `np.sum(self.tcs)`. -/
def Sieve.tc (s : Sieve) : ℚ := s.tcs.sum

/-- `np.bincount` on a list of non-negative codes: counts of each value from
`0` up to the maximum; empty input yields an empty count array. -/
def bincount (l : List ℤ) : List ℕ :=
  if l = [] then []
  else (List.range ((l.map Int.toNat).foldr max 0 + 1)).map fun v => l.count (v : ℤ)

/-- Column `i` of a matrix. -/
def column (x : Mat) (i : ℕ) : List ℤ := x.filterMap fun row => row[i]?

/-- `[np.bincount(x[x[:, i] >= 0, i]) for i in range(self.n_variables)]`. -/
def computeXStats (x : Mat) (nv : ℕ) : List (List ℕ) :=
  (List.range nv).map fun i => bincount ((column x i).filter (fun v => 0 ≤ v))

/-- The growth loop of `Sieve.fit`.  `mk` models `SieveLayer(x, **kwargs)`
(external CorEx / Remainder fitting); `fuel` is the number of layers that may
still be added before `len(self.layers) == max_layers`.  Each iteration
builds a candidate, transforms `x` through it, and appends it iff
`next_layer.corex.tc - next_layer.lb > 1. / n_samples`; a rejection stops
the loop, leaving the layer list and `x_stats` unchanged. -/
def fitLoop (mk : Mat → SieveLayer) (ns nv : ℕ) :
    ℕ → Mat → List SieveLayer → List (List ℕ) → List SieveLayer × List (List ℕ)
  | 0, _, layers, stats => (layers, stats)
  | fuel+1, x, layers, stats =>
    let next := mk x
    let xNext := next.transform x
    if 1 / (ns : ℚ) < next.corex.tc - next.lb then
      fitLoop mk ns nv fuel xNext (layers ++ [next]) (computeXStats xNext nv)
    else (layers, stats)

/-- `Sieve.fit(x)`: starting from the empty layer list, run the growth loop
with `n_samples, n_variables = x.shape` and at most `max_layers` layers. -/
def Sieve.fit (mk : Mat → SieveLayer) (maxLayers : ℕ) (x : Mat) : Sieve :=
  let p := fitLoop mk x.length (x.headD []).length maxLayers x [] []
  ⟨maxLayers, p.1, p.2⟩

/-- A placeholder Remainder used only as the `getD` default where the source
would raise an `IndexError`; theorems carry in-range hypotheses instead. -/
def defaultRemainder : Remainder := ⟨fun v _ => v, fun _ z => z, 0, 0⟩

/-- `Sieve.invert_variable(zi, y, i)`: walk the layers from deepest to
shallowest, replacing `zi` with `layer.remainders[i].predict([y[k]], [zi])[0]`. -/
def Sieve.invert_variable (s : Sieve) (zi : ℤ) (y : List ℤ) (i : ℕ) : ℤ :=
  (s.layers.enum.reverse).foldl
    (fun z p => (p.2.remainders.getD i defaultRemainder).predict (y.getD p.1 0) z) zi

/-- `np.argmax`: index of the first occurrence of the maximum. -/
def argmaxIdx (l : List ℕ) : ℕ := l.indexOf (l.foldr max 0)

/-- `prediction[x_pred] += nxi` on a numpy array: in-range indices update the
cell, indices in `[-len, -1]` wrap to the end of the array, and anything else
raises an `IndexError` (embedded as `none`). -/
def npAddAt (pred : List ℕ) (idx : ℤ) (v : ℕ) : Option (List ℕ) :=
  if 0 ≤ idx ∧ idx < (pred.length : ℤ) then
    some (pred.set idx.toNat (pred.getD idx.toNat 0 + v))
  else if -(pred.length : ℤ) ≤ idx ∧ idx < 0 then
    some (pred.set (pred.length - (-idx).toNat) (pred.getD (pred.length - (-idx).toNat) 0 + v))
  else none

/-- The per-row body of `Sieve.predict_variable`: index `self.x_stats[i]`
(`none` embeds the `IndexError` on an out-of-range variable index), then
accumulate, for every residual value `xi` counted there, the count `nxi` at
index `invert_variable(xi, y, i)` of a fixed `np.zeros(100)` array, and take
the argmax; a reconstruction that is out of the array's index range makes
the whole row fail (`none`). -/
def Sieve.predict_variable_row (s : Sieve) (y : List ℤ) (i : ℕ) : Option ℕ :=
  match s.x_stats[i]? with
  | none => none
  | some stats =>
    ((stats.enum).foldl
        (fun acc p => acc.bind fun pred => npAddAt pred (s.invert_variable (p.1 : ℤ) y i) p.2)
        (some (List.replicate 100 0))).map argmaxIdx

/-- `Sieve.predict_variable(ys, i)`: one prediction per label row. -/
def Sieve.predict_variable (s : Sieve) (ys : Mat) (i : ℕ) : Option (List ℕ) :=
  ys.mapM fun y => s.predict_variable_row y i

/-! ## Specification-side definitions

These follow the spec's (or a claim's) words rather than the source, for
refinement comparisons against the code embedding above. -/

/-- The layer-structural description of `Sieve.transform` that matches the
code: each step transforms through the head layer, accumulates the trailing
label column, and recurses on the full layer output; the deepest layer
returns the full output together with all labels. -/
def goFull : List SieveLayer → Mat → Option Mat → Mat × Mat
  | [], x, prev => (x, prev.getD [])
  | L :: rest, x, prev =>
    let out := L.transform x
    let labs := pushLabels prev out
    match rest with
    | [] => (out, labs)
    | L2 :: rest2 => goFull (L2 :: rest2) out (some labs)

/-- The behaviour asserted by the claim for `Sieve.transform`: split off each
layer's trailing label column and recurse with only the residual portion,
returning at the deepest layer a final residual with no label column. -/
def goResidual : List SieveLayer → Mat → Option Mat → Mat × Mat
  | [], x, prev => (x, prev.getD [])
  | L :: rest, x, prev =>
    let out := L.transform x
    let labs := pushLabels prev out
    let resid := out.map List.dropLast
    match rest with
    | [] => (resid, labs)
    | L2 :: rest2 => goResidual (L2 :: rest2) resid (some labs)

/-- Forward transformation through a list of layers (each layer fed the full
output of the previous one, as in `fit` and `transform`). -/
def chainFold (ls : List SieveLayer) (x : Mat) : Mat :=
  ls.foldl (fun m L => L.transform m) x

/-- A layer's Remainder Models are lossless on the residual/label pairs
actually observed when transforming the matrix `m`: for every sample row and
every variable column, `predict(label, transform(value, label)) = value`. -/
def observedRT (L : SieveLayer) (m : Mat) : Prop :=
  ∀ p ∈ m.zip (L.corex.transform m), ∀ q ∈ L.remainders.zip p.1,
    q.1.predict p.2 (q.1.transform q.2 p.2) = q.2

/-- The per-row behaviour the claim asserts for `predict_variable`: silently
discard reconstructions outside `0..99` and return the argmax of the
accumulated scores. -/
def predictDiscardRow (s : Sieve) (y : List ℤ) (i : ℕ) : ℕ :=
  argmaxIdx (((s.x_stats.getD i []).enum).foldl
    (fun pred p =>
      let xp := s.invert_variable (p.1 : ℤ) y i
      if 0 ≤ xp ∧ xp < 100 then pred.set xp.toNat (pred.getD xp.toNat 0 + p.2) else pred)
    (List.replicate 100 0))

/-! ## Concrete instances used by witnesses and counterexamples -/

/-- An extractor that labels every sample `c` and reports total correlation `t`. -/
def constCorex (c : ℤ) (t : ℚ) : Corex := ⟨fun m => m.map fun _ => c, t⟩

/-- First concrete layer: one variable, identity remainder, constant label 7. -/
def cL0 : SieveLayer := ⟨constCorex 7 1, [7], [defaultRemainder]⟩

/-- Second concrete layer: two variables, identity remainders, constant label 9. -/
def cL1 : SieveLayer := ⟨constCorex 9 1, [9], [defaultRemainder, defaultRemainder]⟩

/-- A two-layer fitted sieve over one original variable. -/
def cS2 : Sieve := ⟨10, [cL0, cL1], []⟩

/-- A one-variable layer with an identity remainder and constant label 0. -/
def cL3 : SieveLayer := ⟨constCorex 0 1, [0, 0], [defaultRemainder]⟩

/-- A one-layer sieve over one variable. -/
def cS3 : Sieve := ⟨10, [cL3], []⟩

/-- A remainder whose statistics satisfy `mi ≤ 2 * h`. -/
def cRem4 : Remainder := ⟨fun v _ => v, fun _ z => z, 1, 1⟩

/-- A one-layer sieve whose remainder has `mi = 1`, `h = 1`. -/
def cS4 : Sieve := ⟨10, [⟨constCorex 0 1, [0], [cRem4]⟩], []⟩

/-- A remainder whose reconstruction is the out-of-range value 150. -/
def badRem : Remainder := ⟨fun v _ => v, fun _ _ => 150, 0, 0⟩

/-- A sieve whose only layer reconstructs 150, with `x_stats = [[3]]`. -/
def cS7 : Sieve := ⟨10, [⟨constCorex 0 1, [0], [badRem]⟩], [[3]]⟩

/-- A one-layer sieve with an identity remainder and non-trivial
`x_stats = [[2, 3]]` (value 0 seen twice, value 1 three times), so that
prediction genuinely accumulates two in-range reconstructions. -/
def cS7b : Sieve := ⟨10, [⟨constCorex 0 1, [0], [defaultRemainder]⟩], [[2, 3]]⟩

/-- A layer factory whose candidates report `tc = 0` (always rejected, since
`0 - 0 > 1/n` fails). -/
def cmk8 : Mat → SieveLayer := fun _ => ⟨constCorex 0 0, [0, 0], []⟩

/-- A layer factory whose candidates report `tc = 1` (accepted for `n ≥ 2`). -/
def cmkA : Mat → SieveLayer := fun _ => ⟨constCorex 0 1, [0, 0], []⟩

/-- A two-sample, one-variable data matrix. -/
def cx8 : Mat := [[0], [1]]

/-- A sieve with no layers. -/
def sEmpty : Sieve := ⟨10, [], []⟩

/-- A placeholder layer used only as a `getD` default in hypotheses that
quantify over in-range layer indices. -/
def dummyLayer : SieveLayer := ⟨⟨fun _ => [], 0⟩, [], []⟩

/-! ## Helper lemmas -/

lemma zipWith_absorb {α β γ : Type} (f : α → γ → β) (g : α → β → γ) :
    ∀ (a : List α) (b : List β),
      List.zipWith f a (List.zipWith g a b) = List.zipWith (fun x y => f x (g x y)) a b
  | [], _ => rfl
  | _ :: _, [] => rfl
  | x :: a, y :: b => by
    simpa using zipWith_absorb f g a b

lemma zipWith_cancel_right {α β : Type} (f : α → β → β) :
    ∀ (a : List α) (b : List β), b.length ≤ a.length →
      (∀ q ∈ a.zip b, f q.1 q.2 = q.2) → List.zipWith f a b = b
  | _, [], _, _ => by simp
  | [], b :: bs, hlen, _ => by simp at hlen
  | a :: as, b :: bs, hlen, hq => by
    have hhead : f a b = b := hq (a, b) (by simp)
    have htail : List.zipWith f as bs = bs :=
      zipWith_cancel_right f as bs (by simpa using hlen) (fun q hq2 => hq q (by simp [hq2]))
    simp [hhead, htail]

lemma layer_transform_length (L : SieveLayer) (x : Mat)
    (hlab : (L.corex.transform x).length = x.length) :
    (L.transform x).length = x.length := by
  simp [SieveLayer.transform, List.length_zip, hlab]

lemma layer_transform_width (L : SieveLayer) (x : Mat)
    (hw : ∀ row ∈ x, row.length = L.remainders.length) :
    ∀ row ∈ L.transform x, row.length = L.remainders.length + 1 := by
  intro row hrow
  simp only [SieveLayer.transform, List.mem_map] at hrow
  obtain ⟨p, hp, rfl⟩ := hrow
  have hp1 := (List.of_mem_zip hp).1
  simp [List.length_zipWith, hw p.1 hp1]

lemma layer_transform_lastCol (L : SieveLayer) (x : Mat)
    (hlab : (L.corex.transform x).length = x.length) :
    lastCol (L.transform x) = (L.corex.transform x).map (fun v => [v]) := by
  unfold lastCol SieveLayer.transform
  rw [List.map_map]
  have hcong : ∀ p ∈ x.zip (L.corex.transform x),
      ((fun row => row.drop (row.length - 1)) ∘
        (fun p : List ℤ × ℤ =>
          List.zipWith (fun r v => r.transform v p.2) L.remainders p.1 ++ [p.2])) p
        = (fun v => [v]) p.2 := by
    intro p _
    simp only [Function.comp_apply, List.length_append, List.length_cons, List.length_nil,
      Nat.add_sub_cancel, List.drop_left]
  rw [List.map_congr_left hcong]
  have := List.map_snd_zip x (L.corex.transform x) (le_of_eq hlab)
  calc (x.zip (L.corex.transform x)).map (fun p => [p.2])
      = ((x.zip (L.corex.transform x)).map Prod.snd).map (fun v => [v]) := by
        rw [List.map_map]; rfl
    _ = (L.corex.transform x).map (fun v => [v]) := by rw [this]

lemma layer_invert_length (L : SieveLayer) (xr : Mat) :
    (L.invert xr).length = xr.length := by
  simp [SieveLayer.invert]

lemma layer_invert_width (L : SieveLayer) (xr : Mat)
    (hw : ∀ row ∈ xr, row.length = L.remainders.length + 1) :
    ∀ row ∈ L.invert xr, row.length = L.remainders.length := by
  intro row hrow
  simp only [SieveLayer.invert, List.mem_map] at hrow
  obtain ⟨r, hr, rfl⟩ := hrow
  simp [List.length_zipWith, List.length_dropLast, hw r hr]

lemma layer_roundtrip (L : SieveLayer) (m : Mat)
    (hlab : (L.corex.transform m).length = m.length)
    (hw : ∀ row ∈ m, row.length = L.remainders.length)
    (hrt : observedRT L m) :
    L.invert (L.transform m) = m := by
  unfold SieveLayer.invert SieveLayer.transform
  rw [List.map_map]
  have hcong : ∀ p ∈ m.zip (L.corex.transform m),
      ((fun row => List.zipWith
          (fun r v => r.predict (row.getD (row.length - 1) 0) v) L.remainders row.dropLast) ∘
        (fun p : List ℤ × ℤ =>
          List.zipWith (fun r v => r.transform v p.2) L.remainders p.1 ++ [p.2])) p
        = Prod.fst p := by
    intro p hp
    obtain ⟨hp1, _⟩ := List.of_mem_zip hp
    have hlen : (List.zipWith (fun r v => r.transform v p.2) L.remainders p.1).length
        = L.remainders.length := by
      simp [List.length_zipWith, hw p.1 hp1]
    simp only [Function.comp_apply, List.length_append, List.length_cons, List.length_nil,
      Nat.add_sub_cancel, List.dropLast_concat]
    have hget : (List.zipWith (fun r v => r.transform v p.2) L.remainders p.1 ++ [p.2]).getD
        (List.zipWith (fun r v => r.transform v p.2) L.remainders p.1).length 0 = p.2 := by
      rw [List.getD_eq_getElem?_getD, List.getElem?_append_right (le_refl _)]
      simp
    rw [hget, zipWith_absorb]
    exact zipWith_cancel_right _ L.remainders p.1 (le_of_eq (hw p.1 hp1)) (hrt p hp)
  rw [List.map_congr_left hcong]
  exact List.map_fst_zip m (L.corex.transform m) (le_of_eq hlab.symm)

lemma transformAux_eq_goFull :
    ∀ (n : ℕ) (layers : List SieveLayer) (k : ℕ) (x : Mat) (prev : Option Mat),
      layers.length ≤ k + n → k < layers.length →
      transformAux layers x k prev = some (goFull (layers.drop k) x prev) := by
  intro n
  induction n with
  | zero => intro layers k x prev hle hlt; omega
  | succ n ih =>
    intro layers k x prev hle hlt
    have hget : layers[k]? = some layers[k] := List.getElem?_eq_getElem hlt
    rw [transformAux]
    split
    · next heq => rw [hget] at heq; cases heq
    · next L heq =>
      have hLk : layers[k] = L := by rw [hget] at heq; injection heq
      rw [List.drop_eq_getElem_cons hlt, hLk]
      by_cases hlast : k = layers.length - 1
      · have hnil : layers.drop (k + 1) = [] := by
          rw [List.drop_eq_nil_iff]
          omega
        rw [hnil, if_pos hlast]
        simp [goFull]
      · have hlt2 : k + 1 < layers.length := by omega
        have hcons := List.drop_eq_getElem_cons hlt2
        rw [if_neg hlast, ih layers (k + 1) (L.transform x)
          (some (pushLabels prev (L.transform x))) (by omega) hlt2, hcons]
        simp [goFull]

lemma goFull_fst : ∀ (ls : List SieveLayer) (x : Mat) (prev : Option Mat), ls ≠ [] →
    (goFull ls x prev).1 = chainFold ls x
  | [], _, _, h => absurd rfl h
  | [L], x, prev, _ => by simp [goFull, chainFold]
  | L :: L2 :: rest, x, prev, _ => by
    have h2 := goFull_fst (L2 :: rest) (L.transform x)
      (some (pushLabels prev (L.transform x))) (by simp)
    simp only [goFull, chainFold, List.foldl_cons] at h2 ⊢
    exact h2

lemma zipWith_append_width : ∀ (p q : Mat) (c d : ℕ),
    (∀ r ∈ p, r.length = c) → (∀ r ∈ q, r.length = d) →
    ∀ r ∈ List.zipWith (· ++ ·) p q, r.length = c + d
  | [], _, _, _, _, _ => by simp
  | _ :: _, [], _, _, _, _ => by simp
  | a :: p, b :: q, c, d, hp, hq => by
    intro r hr
    rw [List.zipWith_cons_cons] at hr
    rcases List.mem_cons.mp hr with h | h
    · subst h
      rw [List.length_append, hp a (List.mem_cons_self a p), hq b (List.mem_cons_self b q)]
    · exact zipWith_append_width p q c d (fun r hr => hp r (List.mem_cons_of_mem a hr))
        (fun r hr => hq r (List.mem_cons_of_mem b hr)) r h

lemma zipWith_snd : ∀ (p q : Mat), q.length ≤ p.length →
    List.zipWith (fun a b => b) p q = q
  | _, [], _ => by simp
  | [], b :: q, h => by simp at h
  | a :: p, b :: q, h => by
    simpa using zipWith_snd p q (by simpa using h)

lemma lastCol_length (m : Mat) : (lastCol m).length = m.length := by
  simp [lastCol]

lemma lastCol_width (m : Mat) (V : ℕ) (h : ∀ r ∈ m, r.length = V + 1) :
    ∀ r ∈ lastCol m, r.length = 1 := by
  intro r hr
  simp only [lastCol, List.mem_map] at hr
  obtain ⟨row, hrow, rfl⟩ := hr
  simp [List.length_drop, h row hrow]

lemma lastCol_of_width_one (q : Mat) (h : ∀ r ∈ q, r.length = 1) : lastCol q = q := by
  unfold lastCol
  have h2 : q.map (fun row => List.drop (row.length - 1) row) = q.map id :=
    List.map_congr_left (fun r hr => by simp [h r hr])
  rw [h2, List.map_id]

lemma lastCol_zipWith_append : ∀ (p q : Mat), q.length ≤ p.length →
    (∀ r ∈ q, r.length = 1) → lastCol (List.zipWith (· ++ ·) p q) = q
  | _, [], _, _ => by simp [lastCol]
  | [], b :: q, h, _ => by simp at h
  | a :: p, b :: q, h, hq => by
    have hb : b.length = 1 := hq b (List.mem_cons_self b q)
    have ih := lastCol_zipWith_append p q (by simpa using h)
      (fun r hr => hq r (List.mem_cons_of_mem b hr))
    simp only [List.zipWith_cons_cons, lastCol, List.map_cons] at ih ⊢
    have hhead : List.drop ((a ++ b).length - 1) (a ++ b) = b := by
      rw [List.length_append, hb, Nat.add_sub_cancel]
      exact List.drop_left a b
    rw [hhead, ih]

lemma chainFold_concat (ls : List SieveLayer) (L : SieveLayer) (x : Mat) :
    chainFold (ls ++ [L]) x = L.transform (chainFold ls x) := by
  simp [chainFold, List.foldl_append]

lemma chainFold_length : ∀ (ls : List SieveLayer) (x : Mat),
    (∀ L ∈ ls, ∀ m : Mat, (L.corex.transform m).length = m.length) →
    (chainFold ls x).length = x.length
  | [], _, _ => rfl
  | L :: ls, x, hcx => by
    show (chainFold ls (L.transform x)).length = x.length
    rw [chainFold_length ls (L.transform x) (fun M hM m => hcx M (List.mem_cons_of_mem L hM) m)]
    exact layer_transform_length L x (hcx L (List.mem_cons_self L ls) x)

lemma chainFold_width : ∀ (ls : List SieveLayer) (V : ℕ) (x : Mat),
    (∀ k, k < ls.length → ((ls.getD k dummyLayer).remainders).length = V + k) →
    (∀ L ∈ ls, ∀ m : Mat, (L.corex.transform m).length = m.length) →
    (∀ row ∈ x, row.length = V) →
    ∀ row ∈ chainFold ls x, row.length = V + ls.length
  | [], V, x, _, _, hw => by simpa using hw
  | L :: ls, V, x, hrem, hcx, hw => by
    have hL : L.remainders.length = V := by simpa using hrem 0 (by simp)
    have hw2 : ∀ row ∈ L.transform x, row.length = V + 1 := by
      intro row hrow
      have := layer_transform_width L x (fun r hr => (hw r hr).trans hL.symm) row hrow
      omega
    intro row hrow
    have hrow2 : row ∈ chainFold ls (L.transform x) := hrow
    have := chainFold_width ls (V + 1) (L.transform x)
      (fun k hk => by
        have h2 := hrem (k + 1) (by simpa using Nat.succ_lt_succ hk)
        rw [List.getD_cons_succ] at h2
        exact h2.trans (by omega))
      (fun M hM m => hcx M (List.mem_cons_of_mem L hM) m) hw2 row hrow2
    simpa [Nat.add_comm, Nat.add_assoc, Nat.add_left_comm] using this

lemma goFull_shape : ∀ (ls : List SieveLayer) (x p : Mat) (V c n : ℕ),
    (∀ k, k < ls.length → ((ls.getD k dummyLayer).remainders).length = V + k) →
    (∀ L ∈ ls, ∀ m : Mat, (L.corex.transform m).length = m.length) →
    x.length = n → (∀ row ∈ x, row.length = V) →
    p.length = n → (∀ row ∈ p, row.length = c) →
    ls ≠ [] →
    (goFull ls x (some p)).1.length = n
      ∧ (∀ row ∈ (goFull ls x (some p)).1, row.length = V + ls.length)
      ∧ (goFull ls x (some p)).2.length = n
      ∧ (∀ row ∈ (goFull ls x (some p)).2, row.length = c + ls.length)
      ∧ lastCol (goFull ls x (some p)).1 = lastCol (goFull ls x (some p)).2
  | [], _, _, _, _, _, _, _, _, _, _, _, hne => absurd rfl hne
  | [L], x, p, V, c, n, hrem, hcx, hx, hw, hp, hpc, _ => by
    have hred : goFull [L] x (some p)
        = (L.transform x, List.zipWith (· ++ ·) p (lastCol (L.transform x))) := rfl
    have hL : L.remainders.length = V := by simpa using hrem 0 (by simp)
    have hlab := hcx L (List.mem_cons_self L []) x
    have hout_len : (L.transform x).length = n := (layer_transform_length L x hlab).trans hx
    have hout_w : ∀ row ∈ L.transform x, row.length = V + 1 := fun row hr => by
      have := layer_transform_width L x (fun r h2 => (hw r h2).trans hL.symm) row hr
      omega
    have hlc_len : (lastCol (L.transform x)).length = n := (lastCol_length _).trans hout_len
    have hlc_w := lastCol_width (L.transform x) V hout_w
    rw [hred]
    refine ⟨hout_len, ?_, ?_, ?_, ?_⟩
    · intro row hr
      simpa using hout_w row hr
    · simpa [List.length_zipWith, hp, hlc_len]
    · intro row hr
      simpa using zipWith_append_width p (lastCol (L.transform x)) c 1 hpc hlc_w row hr
    · exact (lastCol_zipWith_append p (lastCol (L.transform x))
        (le_of_eq (hlc_len.trans hp.symm)) hlc_w).symm
  | L :: L2 :: rest, x, p, V, c, n, hrem, hcx, hx, hw, hp, hpc, _ => by
    have hred : goFull (L :: L2 :: rest) x (some p)
        = goFull (L2 :: rest) (L.transform x)
            (some (List.zipWith (· ++ ·) p (lastCol (L.transform x)))) := rfl
    have hL : L.remainders.length = V := by simpa using hrem 0 (by simp)
    have hlab := hcx L (List.mem_cons_self L (L2 :: rest)) x
    have hout_len : (L.transform x).length = n := (layer_transform_length L x hlab).trans hx
    have hout_w : ∀ row ∈ L.transform x, row.length = V + 1 := fun row hr => by
      have := layer_transform_width L x (fun r h2 => (hw r h2).trans hL.symm) row hr
      omega
    have hlc_len : (lastCol (L.transform x)).length = n := (lastCol_length _).trans hout_len
    have hlc_w := lastCol_width (L.transform x) V hout_w
    have hlabs_len : (List.zipWith (· ++ ·) p (lastCol (L.transform x))).length = n := by
      simp [List.length_zipWith, hp, hlc_len]
    have hlabs_w : ∀ row ∈ List.zipWith (· ++ ·) p (lastCol (L.transform x)),
        row.length = c + 1 :=
      zipWith_append_width p (lastCol (L.transform x)) c 1 hpc hlc_w
    have ih := goFull_shape (L2 :: rest) (L.transform x)
      (List.zipWith (· ++ ·) p (lastCol (L.transform x))) (V + 1) (c + 1) n
      (fun k hk => by
        have h2 := hrem (k + 1) (by simpa using Nat.succ_lt_succ hk)
        rw [List.getD_cons_succ] at h2
        exact h2.trans (by omega))
      (fun M hM m => hcx M (List.mem_cons_of_mem L hM) m)
      hout_len hout_w hlabs_len hlabs_w (by simp)
    obtain ⟨i1, i2, i3, i4, i5⟩ := ih
    rw [hred]
    refine ⟨i1, ?_, i3, ?_, i5⟩
    · intro row hr
      have := i2 row hr
      simp only [List.length_cons] at this ⊢
      omega
    · intro row hr
      have := i4 row hr
      simp only [List.length_cons] at this ⊢
      omega

lemma goFull_shape_none : ∀ (ls : List SieveLayer) (x : Mat) (V n : ℕ),
    (∀ k, k < ls.length → ((ls.getD k dummyLayer).remainders).length = V + k) →
    (∀ L ∈ ls, ∀ m : Mat, (L.corex.transform m).length = m.length) →
    x.length = n → (∀ row ∈ x, row.length = V) →
    ls ≠ [] →
    (goFull ls x none).1.length = n
      ∧ (∀ row ∈ (goFull ls x none).1, row.length = V + ls.length)
      ∧ (goFull ls x none).2.length = n
      ∧ (∀ row ∈ (goFull ls x none).2, row.length = ls.length)
      ∧ lastCol (goFull ls x none).1 = lastCol (goFull ls x none).2
  | [], _, _, _, _, _, _, _, hne => absurd rfl hne
  | [L], x, V, n, hrem, hcx, hx, hw, _ => by
    have hred : goFull [L] x none = (L.transform x, lastCol (L.transform x)) := rfl
    have hL : L.remainders.length = V := by simpa using hrem 0 (by simp)
    have hlab := hcx L (List.mem_cons_self L []) x
    have hout_len : (L.transform x).length = n := (layer_transform_length L x hlab).trans hx
    have hout_w : ∀ row ∈ L.transform x, row.length = V + 1 := fun row hr => by
      have := layer_transform_width L x (fun r h2 => (hw r h2).trans hL.symm) row hr
      omega
    have hlc_w := lastCol_width (L.transform x) V hout_w
    rw [hred]
    refine ⟨hout_len, ?_, (lastCol_length _).trans hout_len, ?_, ?_⟩
    · intro row hr
      simpa using hout_w row hr
    · intro row hr
      simpa using hlc_w row hr
    · exact (lastCol_of_width_one (lastCol (L.transform x)) hlc_w).symm
  | L :: L2 :: rest, x, V, n, hrem, hcx, hx, hw, _ => by
    have hred : goFull (L :: L2 :: rest) x none
        = goFull (L2 :: rest) (L.transform x) (some (lastCol (L.transform x))) := rfl
    have hL : L.remainders.length = V := by simpa using hrem 0 (by simp)
    have hlab := hcx L (List.mem_cons_self L (L2 :: rest)) x
    have hout_len : (L.transform x).length = n := (layer_transform_length L x hlab).trans hx
    have hout_w : ∀ row ∈ L.transform x, row.length = V + 1 := fun row hr => by
      have := layer_transform_width L x (fun r h2 => (hw r h2).trans hL.symm) row hr
      omega
    have hlc_len : (lastCol (L.transform x)).length = n := (lastCol_length _).trans hout_len
    have hlc_w := lastCol_width (L.transform x) V hout_w
    have hsome := goFull_shape (L2 :: rest) (L.transform x) (lastCol (L.transform x))
      (V + 1) 1 n
      (fun k hk => by
        have h2 := hrem (k + 1) (by simpa using Nat.succ_lt_succ hk)
        rw [List.getD_cons_succ] at h2
        exact h2.trans (by omega))
      (fun M hM m => hcx M (List.mem_cons_of_mem L hM) m)
      hout_len hout_w hlc_len hlc_w (by simp)
    obtain ⟨i1, i2, i3, i4, i5⟩ := hsome
    rw [hred]
    refine ⟨i1, ?_, i3, ?_, i5⟩
    · intro row hr
      have := i2 row hr
      simp only [List.length_cons] at this ⊢
      omega
    · intro row hr
      have := i4 row hr
      simp only [List.length_cons] at this ⊢
      omega

lemma invertAux_append (l : List SieveLayer) (L : SieveLayer) :
    ∀ (k : ℕ) (x : Mat), k < l.length → invertAux (l ++ [L]) x k = invertAux l x k
  | 0, x, hk => by
    unfold invertAux
    rw [List.getElem?_append_left hk]
  | k+1, x, hk => by
    unfold invertAux
    rw [List.getElem?_append_left hk]
    cases h2 : l[k+1]? with
    | none => rfl
    | some M => exact invertAux_append l L k (M.invert x) (by omega)

lemma invertAux_succ (layers : List SieveLayer) (x : Mat) (k : ℕ) (L : SieveLayer)
    (h : layers[k+1]? = some L) :
    invertAux layers x (k+1) = invertAux layers (L.invert x) k := by
  simp only [invertAux, h]

lemma getD_append_left (l1 l2 : List SieveLayer) (k : ℕ) (hk : k < l1.length) :
    (l1 ++ l2).getD k dummyLayer = l1.getD k dummyLayer := by
  rw [List.getD_eq_getElem?_getD, List.getElem?_append_left hk, ← List.getD_eq_getElem?_getD]

lemma invert_chain (V : ℕ) :
    ∀ (ls : List SieveLayer) (x : Mat),
      ls ≠ [] →
      (∀ k, k < ls.length → ((ls.getD k dummyLayer).remainders).length = V + k) →
      (∀ L ∈ ls, ∀ m : Mat, (L.corex.transform m).length = m.length) →
      (∀ row ∈ x, row.length = V) →
      (∀ k, k < ls.length → observedRT (ls.getD k dummyLayer) (chainFold (ls.take k) x)) →
      invertAux ls (chainFold ls x) (ls.length - 1) = some x := by
  intro ls
  induction ls using List.reverseRecOn with
  | nil => intro x hne; exact absurd rfl hne
  | append_singleton l L ih =>
    intro x _ hrem hcx hw hobs
    have hgetL : (l ++ [L]).getD l.length dummyLayer = L := by
      rw [List.getD_eq_getElem?_getD, List.getElem?_append_right (le_refl _)]
      simp
    have hremL : L.remainders.length = V + l.length := by
      have h2 := hrem l.length (by simp)
      rwa [hgetL] at h2
    have hrem2 : ∀ k, k < l.length → ((l.getD k dummyLayer).remainders).length = V + k := by
      intro k hk
      have h2 := hrem k (by simp; omega)
      rwa [getD_append_left l [L] k hk] at h2
    have hcx2 : ∀ M ∈ l, ∀ m : Mat, (M.corex.transform m).length = m.length :=
      fun M hM m => hcx M (List.mem_append_left [L] hM) m
    have hwchain : ∀ row ∈ chainFold l x, row.length = V + l.length :=
      chainFold_width l V x hrem2 hcx2 hw
    have hobsL : observedRT L (chainFold l x) := by
      have h2 := hobs l.length (by simp)
      rwa [hgetL, List.take_left] at h2
    have hrt : L.invert (L.transform (chainFold l x)) = chainFold l x :=
      layer_roundtrip L (chainFold l x) (hcx L (List.mem_append_right l (by simp)) _)
        (fun row hr => (hwchain row hr).trans hremL.symm) hobsL
    have hchain := chainFold_concat l L x
    rcases l with _ | ⟨L0, l0⟩
    · simp only [List.nil_append, List.length_cons, List.length_nil, Nat.zero_add,
        Nat.sub_self] at hchain ⊢
      rw [hchain]
      have hstep : invertAux [L] (L.transform (chainFold [] x)) 0
          = some (L.invert (L.transform (chainFold [] x))) := by
        unfold invertAux
        simp
      rw [hstep, hrt]
      rfl
    · set l := L0 :: l0 with hl
      obtain ⟨m, hm⟩ : ∃ m, l.length = m + 1 := ⟨l0.length, by simp [hl]⟩
      have hidx : (l ++ [L]).length - 1 = m + 1 := by simp [hm]
      have hsome : (l ++ [L])[m + 1]? = some L := by
        rw [← hm, List.getElem?_append_right (le_refl _)]
        simp
      rw [hidx, hchain, invertAux_succ (l ++ [L]) (L.transform (chainFold l x)) m L hsome,
        hrt, invertAux_append l L m (chainFold l x) (by omega),
        show m = l.length - 1 by omega]
      refine ih x (by simp [hl]) hrem2 hcx2 hw ?_
      intro k hk
      have h2 := hobs k (by simp; omega)
      rwa [getD_append_left l [L] k hk, List.take_append_of_le_length (le_of_lt hk)] at h2

lemma fitLoop_reject (mk : Mat → SieveLayer) (ns nv fuel : ℕ) (x : Mat)
    (layers : List SieveLayer) (stats : List (List ℕ))
    (hrej : ¬ 1 / (ns : ℚ) < (mk x).corex.tc - (mk x).lb) :
    fitLoop mk ns nv (fuel + 1) x layers stats = (layers, stats) := by
  simp only [fitLoop, if_neg hrej]

lemma fitLoop_accept (mk : Mat → SieveLayer) (ns nv fuel : ℕ) (x : Mat)
    (layers : List SieveLayer) (stats : List (List ℕ))
    (hacc : 1 / (ns : ℚ) < (mk x).corex.tc - (mk x).lb) :
    fitLoop mk ns nv (fuel + 1) x layers stats
      = fitLoop mk ns nv fuel ((mk x).transform x) (layers ++ [mk x])
          (computeXStats ((mk x).transform x) nv) := by
  simp only [fitLoop, if_pos hacc]

lemma fitLoop_extends (mk : Mat → SieveLayer) (ns nv : ℕ) :
    ∀ (fuel : ℕ) (x : Mat) (layers : List SieveLayer) (stats : List (List ℕ)),
      ∃ t, (fitLoop mk ns nv fuel x layers stats).1 = layers ++ t
  | 0, _, layers, _ => ⟨[], by simp [fitLoop]⟩
  | fuel+1, x, layers, stats => by
    by_cases hacc : 1 / (ns : ℚ) < (mk x).corex.tc - (mk x).lb
    · obtain ⟨t, ht⟩ := fitLoop_extends mk ns nv fuel ((mk x).transform x)
        (layers ++ [mk x]) (computeXStats ((mk x).transform x) nv)
      refine ⟨[mk x] ++ t, ?_⟩
      rw [fitLoop_accept mk ns nv fuel x layers stats hacc, ht, List.append_assoc]
    · exact ⟨[], by rw [fitLoop_reject mk ns nv fuel x layers stats hacc]; simp⟩

lemma fitLoop_length_le (mk : Mat → SieveLayer) (ns nv : ℕ) :
    ∀ (fuel : ℕ) (x : Mat) (layers : List SieveLayer) (stats : List (List ℕ)),
      (fitLoop mk ns nv fuel x layers stats).1.length ≤ layers.length + fuel
  | 0, _, layers, _ => by simp [fitLoop]
  | fuel+1, x, layers, stats => by
    by_cases hacc : 1 / (ns : ℚ) < (mk x).corex.tc - (mk x).lb
    · rw [fitLoop_accept mk ns nv fuel x layers stats hacc]
      have := fitLoop_length_le mk ns nv fuel ((mk x).transform x)
        (layers ++ [mk x]) (computeXStats ((mk x).transform x) nv)
      simp only [List.length_append, List.length_cons, List.length_nil] at this
      omega
    · rw [fitLoop_reject mk ns nv fuel x layers stats hacc]
      simp

lemma foldl_npAddAt_in_range (f : ℕ → ℤ) :
    ∀ (l : List (ℕ × ℕ)) (pred : List ℕ), pred.length = 100 →
      (∀ p ∈ l, 0 ≤ f p.1 ∧ f p.1 < 100) →
      l.foldl (fun acc p => acc.bind fun q => npAddAt q (f p.1) p.2) (some pred)
        = some (l.foldl (fun q p =>
            if 0 ≤ f p.1 ∧ f p.1 < 100 then
              q.set (f p.1).toNat (q.getD (f p.1).toNat 0 + p.2)
            else q) pred)
  | [], pred, _, _ => by simp
  | p :: l, pred, hlen, hin => by
    have hp := hin p (List.mem_cons_self p l)
    have hstep : npAddAt pred (f p.1) p.2
        = some (pred.set (f p.1).toNat (pred.getD (f p.1).toNat 0 + p.2)) := by
      unfold npAddAt
      rw [if_pos ⟨hp.1, by rw [hlen]; exact_mod_cast hp.2⟩]
    rw [List.foldl_cons, List.foldl_cons]
    have h1 : ((some pred).bind fun q => npAddAt q (f p.1) p.2)
        = some (pred.set (f p.1).toNat (pred.getD (f p.1).toNat 0 + p.2)) := hstep
    rw [h1, if_pos hp]
    exact foldl_npAddAt_in_range f l _
      (by rw [List.length_set, hlen])
      (fun q hq => hin q (List.mem_cons_of_mem p hq))

/-! ## Claim theorems -/

/-- C1 (amended): `Sieve.transform(x, layer=0, prev_labels=None)` on a fitted
Sieve with at least one layer splits off each layer's trailing label column
into the accumulated labels (shallowest first) but recurses into the next
layer passing the FULL layer output (residual codes with the trailing label
column) as the new `x`; at the deepest layer it returns `(x_out, all_labels)`
where `x_out` is the deepest layer's full output, still carrying the deepest
label as its last column. -/
theorem sieve_transform_full_output (s : Sieve) (x : Mat) (hne : s.layers ≠ []) :
    s.transform x = some (goFull s.layers x none) := by
  have h0 : 0 < s.layers.length := List.length_pos.mpr hne
  unfold Sieve.transform
  simpa using transformAux_eq_goFull s.layers.length s.layers 0 x none (by omega) h0

theorem sieve_transform_full_output_witness :
    cS3.transform [[1], [2]] = some (goFull cS3.layers [[1], [2]] none) :=
  sieve_transform_full_output cS3 [[1], [2]] (by simp [cS3])

/-- C1 counterexample: on a concrete two-layer sieve over one variable,
`Sieve.transform` does not return the residual-only recursion result the
claim describes (`goResidual`): the code passes the full layer output down
and the final residual keeps the label columns, giving `[[5, 7, 9]]` rather
than a label-free residual. -/
theorem sieve_transform_residual_refuted :
    cS2.transform [[5]] = some ([[5, 7, 9]], [[7, 9]])
      ∧ cS2.transform [[5]] ≠ some (goResidual cS2.layers [[5]] none) := by
  have heq : cS2.transform [[5]] = some (goFull cS2.layers [[5]] none) := by
    unfold Sieve.transform
    simpa using transformAux_eq_goFull cS2.layers.length cS2.layers 0 [[5]] none
      (by omega) (by simp [cS2])
  constructor
  · rw [heq]
    decide
  · rw [heq]
    decide

/-- C2: during `fit`, a candidate layer is appended (and survives at position
`len(layers)` in the final layer list) iff
`candidate.corex.tc - candidate.lb > 1 / n_samples`; when the test fails the
loop stops at once, discarding the candidate and leaving the layer list and
`x_stats` exactly as they were. -/
theorem fit_appends_iff_accept (mk : Mat → SieveLayer) (ns nv fuel : ℕ) (x : Mat)
    (layers : List SieveLayer) (stats : List (List ℕ)) :
    ((fitLoop mk ns nv (fuel + 1) x layers stats).1[layers.length]? = some (mk x)
        ↔ 1 / (ns : ℚ) < (mk x).corex.tc - (mk x).lb)
    ∧ (¬ 1 / (ns : ℚ) < (mk x).corex.tc - (mk x).lb →
        fitLoop mk ns nv (fuel + 1) x layers stats = (layers, stats)) := by
  constructor
  · constructor
    · intro hsome
      by_contra hrej
      rw [fitLoop_reject mk ns nv fuel x layers stats hrej] at hsome
      rw [List.getElem?_eq_none (le_refl layers.length)] at hsome
      simp at hsome
    · intro hacc
      rw [fitLoop_accept mk ns nv fuel x layers stats hacc]
      obtain ⟨t, ht⟩ := fitLoop_extends mk ns nv fuel ((mk x).transform x)
        (layers ++ [mk x]) (computeXStats ((mk x).transform x) nv)
      rw [ht, List.append_assoc, List.getElem?_append_right (le_refl _)]
      simp
  · exact fun hrej => fitLoop_reject mk ns nv fuel x layers stats hrej

theorem fit_appends_iff_accept_witness :
    (fitLoop cmkA 2 1 (0 + 1) cx8 [] []).1[(0 : ℕ)]? = some (cmkA cx8) :=
  (fit_appends_iff_accept cmkA 2 1 0 cx8 [] []).1.mpr
    (by norm_num [cmkA, constCorex, SieveLayer.lb])

/-- C3: for a fitted sieve with at least one layer, well-layered remainder
counts and a per-sample extractor, if every Remainder Model inverts its own
residual on all residual/label pairs observed while transforming `x` through
the chain, then `Sieve.invert` applied to the first component of
`Sieve.transform(x)` recovers `x` exactly. -/
theorem sieve_roundtrip (s : Sieve) (x : Mat) (V : ℕ)
    (hne : s.layers ≠ [])
    (hrem : ∀ k, k < s.layers.length →
      ((s.layers.getD k dummyLayer).remainders).length = V + k)
    (hcx : ∀ L ∈ s.layers, ∀ m : Mat, (L.corex.transform m).length = m.length)
    (hw : ∀ row ∈ x, row.length = V)
    (hrt : ∀ k, k < s.layers.length →
      observedRT (s.layers.getD k dummyLayer) (chainFold (s.layers.take k) x)) :
    ∃ r lab, s.transform x = some (r, lab) ∧ s.invert r = some x := by
  have h0 : 0 < s.layers.length := List.length_pos.mpr hne
  have heq : s.transform x = some (goFull s.layers x none) := by
    unfold Sieve.transform
    simpa using transformAux_eq_goFull s.layers.length s.layers 0 x none (by omega) h0
  refine ⟨(goFull s.layers x none).1, (goFull s.layers x none).2, by rw [heq], ?_⟩
  rw [goFull_fst s.layers x none hne]
  unfold Sieve.invert
  exact invert_chain V s.layers x hne hrem hcx hw hrt

theorem sieve_roundtrip_witness :
    ∃ r lab, cS3.transform [[1], [2]] = some (r, lab) ∧ cS3.invert r = some [[1], [2]] := by
  refine sieve_roundtrip cS3 [[1], [2]] 1 (by simp [cS3]) ?_ ?_ ?_ ?_
  · intro k hk
    have hk0 : k = 0 := by
      simp only [cS3, List.length_cons, List.length_nil] at hk
      omega
    subst hk0
    rfl
  · intro L hL m
    simp only [cS3, List.mem_cons, List.not_mem_nil, or_false] at hL
    subst hL
    simp [cL3, constCorex]
  · decide
  · intro k hk
    have hk0 : k = 0 := by
      simp only [cS3, List.length_cons, List.length_nil] at hk
      omega
    subst hk0
    unfold observedRT
    decide

/-- C4: if every Remainder Model of a fitted sieve satisfies `mi ≤ 2 * h`,
then `ub ≥ lb` holds for every individual layer and for the sieve's
aggregate bounds. -/
theorem bounds_ordering (s : Sieve)
    (h : ∀ L ∈ s.layers, ∀ r ∈ L.remainders, r.mi ≤ 2 * r.h) :
    (∀ L ∈ s.layers, L.lb ≤ L.ub) ∧ s.lb ≤ s.ub := by
  have hlayer : ∀ L ∈ s.layers, L.lb ≤ L.ub := by
    intro L hL
    unfold SieveLayer.lb SieveLayer.ub
    exact List.sum_le_sum (fun r hr => h L hL r hr)
  refine ⟨hlayer, ?_⟩
  unfold Sieve.lb Sieve.ub
  exact List.sum_le_sum (fun L hL => hlayer L hL)

theorem bounds_ordering_witness :
    (∀ L ∈ cS4.layers, L.lb ≤ L.ub) ∧ cS4.lb ≤ cS4.ub := by
  refine bounds_ordering cS4 ?_
  intro L hL r hr
  simp only [cS4, List.mem_cons, List.not_mem_nil, or_false] at hL
  subst hL
  simp only [List.mem_cons, List.not_mem_nil, or_false] at hr
  subst hr
  norm_num [cRem4]

/-- C5: `fit` never produces more than `max_layers` layers, and whenever a
candidate fails the acceptance test the loop returns immediately with the
layer count unchanged — strictly below the count it could still have
reached with the remaining iterations. -/
theorem fit_layer_count (mk : Mat → SieveLayer) (maxLayers : ℕ) (x0 : Mat) :
    (Sieve.fit mk maxLayers x0).layers.length ≤ maxLayers
    ∧ ∀ (ns nv fuel : ℕ) (x : Mat) (layers : List SieveLayer) (stats : List (List ℕ)),
        0 < fuel → ¬ 1 / (ns : ℚ) < (mk x).corex.tc - (mk x).lb →
        (fitLoop mk ns nv fuel x layers stats).1.length = layers.length
          ∧ (fitLoop mk ns nv fuel x layers stats).1.length < layers.length + fuel := by
  constructor
  · have := fitLoop_length_le mk x0.length (x0.headD []).length maxLayers x0 [] []
    simpa [Sieve.fit] using this
  · intro ns nv fuel x layers stats hfuel hrej
    obtain ⟨f, rfl⟩ : ∃ f, fuel = f + 1 := ⟨fuel - 1, by omega⟩
    rw [fitLoop_reject mk ns nv f x layers stats hrej]
    refine ⟨rfl, ?_⟩
    show layers.length < layers.length + (f + 1)
    omega

theorem fit_layer_count_witness :
    (Sieve.fit cmk8 10 cx8).layers.length ≤ 10
      ∧ (fitLoop cmk8 2 1 1 cx8 [] []).1.length = 0 := by
  have h := fit_layer_count cmk8 10 cx8
  refine ⟨h.1, ?_⟩
  exact (h.2 2 1 1 cx8 [] [] (by norm_num)
    (by norm_num [cmk8, constCorex, SieveLayer.lb])).1

/-- C6: for a fitted layer and an input with one column per Remainder Model,
`SieveLayer.transform` returns the residual matrix with the label appended
as last column (output width = input width + 1, last column = the labels),
and `SieveLayer.invert` consumes the trailing label column and predicts one
value per remaining column (output width = input width − 1). -/
theorem layer_transform_invert_shape (L : SieveLayer) (x : Mat)
    (hlab : (L.corex.transform x).length = x.length)
    (hw : ∀ row ∈ x, row.length = L.remainders.length) :
    ((L.transform x).length = x.length
      ∧ (∀ row ∈ L.transform x, row.length = L.remainders.length + 1)
      ∧ lastCol (L.transform x) = (L.corex.transform x).map (fun v => [v]))
    ∧ ∀ xr : Mat, (∀ row ∈ xr, row.length = L.remainders.length + 1) →
        (L.invert xr).length = xr.length
          ∧ ∀ row ∈ L.invert xr, row.length = L.remainders.length :=
  ⟨⟨layer_transform_length L x hlab, layer_transform_width L x hw,
      layer_transform_lastCol L x hlab⟩,
    fun xr hxr => ⟨layer_invert_length L xr, layer_invert_width L xr hxr⟩⟩

theorem layer_transform_invert_shape_witness :
    (((cL3.transform [[1], [2]]).length = ([[1], [2]] : Mat).length
      ∧ (∀ row ∈ cL3.transform [[1], [2]], row.length = cL3.remainders.length + 1)
      ∧ lastCol (cL3.transform [[1], [2]])
          = (cL3.corex.transform [[1], [2]]).map (fun v => [v]))
    ∧ ∀ xr : Mat, (∀ row ∈ xr, row.length = cL3.remainders.length + 1) →
        (cL3.invert xr).length = xr.length
          ∧ ∀ row ∈ cL3.invert xr, row.length = cL3.remainders.length) :=
  layer_transform_invert_shape cL3 [[1], [2]] (by decide) (by decide)

set_option maxRecDepth 4000 in
/-- C7 counterexample: with a layer whose Remainder Model reconstructs the
out-of-range value 150 and `x_stats = [[3]]`, `predict_variable` yields no
result (the embedded numpy index error) instead of silently discarding the
reconstruction and returning the argmax 0 that the claimed discard
semantics (`predictDiscardRow`) produces. -/
theorem predict_variable_discard_refuted :
    cS7.predict_variable [[0]] 0 = none
      ∧ predictDiscardRow cS7 [0] 0 = 0
      ∧ cS7.predict_variable [[0]] 0 ≠ some [predictDiscardRow cS7 [0] 0] := by
  refine ⟨by decide, by decide, ?_⟩
  intro hc
  rw [show cS7.predict_variable [[0]] 0 = none from by decide] at hc
  cases hc

/-- C7 (amended): `predict_variable` accumulates frequency scores in a
fixed-length-100 array; a reconstructed value outside the numpy index range
(at or above 100, or below −100) makes it fail with an index error rather
than being silently discarded, while values in `[-100, -1]` wrap to the end
of the array; when every reconstructed value lies in `0..99` it returns per
sample the argmax over the accumulated scores, as `predictDiscardRow`
describes. -/
theorem predict_variable_in_range (s : Sieve) (y : List ℤ) (i : ℕ)
    (hi : i < s.x_stats.length)
    (h : ∀ p ∈ (s.x_stats.getD i []).enum,
        0 ≤ s.invert_variable (p.1 : ℤ) y i ∧ s.invert_variable (p.1 : ℤ) y i < 100) :
    s.predict_variable_row y i = some (predictDiscardRow s y i) := by
  have hgetD : s.x_stats.getD i [] = s.x_stats[i] := by
    rw [List.getD_eq_getElem?_getD, List.getElem?_eq_getElem hi]
    rfl
  have hstep : s.predict_variable_row y i
      = ((s.x_stats[i].enum).foldl
          (fun acc p =>
            acc.bind fun pred => npAddAt pred (s.invert_variable (p.1 : ℤ) y i) p.2)
          (some (List.replicate 100 0))).map argmaxIdx := by
    unfold Sieve.predict_variable_row
    rw [List.getElem?_eq_getElem hi]
  rw [hgetD] at h
  rw [hstep, foldl_npAddAt_in_range (fun xi => s.invert_variable (xi : ℤ) y i)
    (s.x_stats[i].enum) (List.replicate 100 0) (by simp) h]
  unfold predictDiscardRow
  rw [hgetD]
  rfl

set_option maxRecDepth 4000 in
theorem predict_variable_in_range_witness :
    cS7b.predict_variable_row [0] 0 = some (predictDiscardRow cS7b [0] 0)
      ∧ predictDiscardRow cS7b [0] 0 = 1 :=
  ⟨predict_variable_in_range cS7b [0] 0 (by decide) (by decide), by decide⟩

lemma transposeArr_shape (m : Mat) (n : ℕ) (hne : m ≠ []) (h : ∀ r ∈ m, r.length = n) :
    (transposeArr m).length = n ∧ ∀ row ∈ transposeArr m, row.length = m.length := by
  cases m with
  | nil => exact absurd rfl hne
  | cons r rest =>
    unfold transposeArr
    constructor
    · simp [h r (List.mem_cons_self r rest)]
    · intro row hrow
      obtain ⟨j, _, rfl⟩ := List.mem_map.mp hrow
      simp

/-- C8 counterexample: fitting on a two-sample matrix with a factory whose
candidates always fail the acceptance test leaves the layer list empty, and
the `labels` property is then the empty array with zero rows — not a
`(n_samples, 0)`-shaped matrix with one (empty) row per sample. -/
theorem labels_empty_shape_refuted :
    (Sieve.fit cmk8 10 cx8).layers.length = 0
      ∧ (Sieve.fit cmk8 10 cx8).labels.length = 0
      ∧ cx8.length = 2
      ∧ (Sieve.fit cmk8 10 cx8).labels.length ≠ cx8.length := by
  have hloop : fitLoop cmk8 cx8.length (cx8.headD []).length 10 cx8 [] [] = ([], []) :=
    fitLoop_reject cmk8 cx8.length (cx8.headD []).length 9 cx8 [] []
      (by norm_num [cmk8, constCorex, SieveLayer.lb, cx8])
  have hfit : Sieve.fit cmk8 10 cx8 = ⟨10, [], []⟩ := by
    simp only [Sieve.fit, hloop]
  rw [hfit]
  refine ⟨rfl, rfl, rfl, ?_⟩
  decide

/-- C8 (amended): for a fitted sieve with at least one layer whose per-layer
label vectors all have `n` entries, the `labels` property has `n` rows of
width equal to the number of layers; with zero layers the property is the
empty array with zero rows (numpy `np.array([]).T`), not an
`(n_samples, 0)` matrix. -/
theorem labels_shape (s : Sieve) (n : ℕ) (h1 : s.layers ≠ [])
    (h2 : ∀ L ∈ s.layers, L.labels.length = n) :
    s.labels.length = n ∧ ∀ row ∈ s.labels, row.length = s.layers.length := by
  have hm : s.layers.map SieveLayer.labels ≠ [] := by
    intro hc
    exact h1 (List.map_eq_nil_iff.mp hc)
  have hshape := transposeArr_shape (s.layers.map SieveLayer.labels) n hm
    (by
      intro r hr
      obtain ⟨L, hL, rfl⟩ := List.mem_map.mp hr
      exact h2 L hL)
  unfold Sieve.labels
  exact ⟨hshape.1, fun row hrow => (hshape.2 row hrow).trans (List.length_map _ _)⟩

theorem labels_shape_witness :
    cS3.labels.length = 2 ∧ ∀ row ∈ cS3.labels, row.length = cS3.layers.length := by
  refine labels_shape cS3 2 (by simp [cS3]) ?_
  intro L hL
  simp only [cS3, List.mem_cons, List.not_mem_nil, or_false] at hL
  subst hL
  rfl

/-- C9: on a sieve whose layer sequence is empty, both `transform` and
`invert` index into the empty layer list (`layers[0]` and `layers[-1]`
respectively) and fail for every input matrix: there is no identity or
pass-through behaviour in the zero-layer case. -/
theorem empty_sieve_no_result (s : Sieve) (x : Mat) (h : s.layers = []) :
    s.transform x = none ∧ s.invert x = none := by
  constructor
  · unfold Sieve.transform
    rw [h]
    rw [transformAux]
    rfl
  · unfold Sieve.invert
    rw [h]
    rfl

theorem empty_sieve_no_result_witness :
    sEmpty.transform [[1]] = none ∧ sEmpty.invert [[1]] = none :=
  empty_sieve_no_result sEmpty [[1]] rfl

/-- C10: for a fitted sieve with `L ≥ 1` layers whose layer `k` holds
`V + k` Remainder Models and whose extractors label one row per sample,
`Sieve.transform` on an `n × V` matrix returns `(r, labels)` with `r` of
width `V + L`, `labels` of width `L` (one column per layer, shallowest
first), and the last column of `r` equal to the last column of `labels`:
the deepest layer's label appears in both components. -/
theorem sieve_transform_shape (s : Sieve) (x : Mat) (V n : ℕ)
    (hne : s.layers ≠ [])
    (hrem : ∀ k, k < s.layers.length →
      ((s.layers.getD k dummyLayer).remainders).length = V + k)
    (hcx : ∀ L ∈ s.layers, ∀ m : Mat, (L.corex.transform m).length = m.length)
    (hx : x.length = n) (hw : ∀ row ∈ x, row.length = V) :
    ∃ r lab, s.transform x = some (r, lab)
      ∧ r.length = n ∧ (∀ row ∈ r, row.length = V + s.layers.length)
      ∧ lab.length = n ∧ (∀ row ∈ lab, row.length = s.layers.length)
      ∧ lastCol r = lastCol lab := by
  have h0 : 0 < s.layers.length := List.length_pos.mpr hne
  have heq : s.transform x = some (goFull s.layers x none) := by
    unfold Sieve.transform
    simpa using transformAux_eq_goFull s.layers.length s.layers 0 x none (by omega) h0
  obtain ⟨i1, i2, i3, i4, i5⟩ := goFull_shape_none s.layers x V n hrem hcx hx hw hne
  exact ⟨(goFull s.layers x none).1, (goFull s.layers x none).2,
    by rw [heq], i1, i2, i3, i4, i5⟩

theorem sieve_transform_shape_witness :
    ∃ r lab, cS2.transform [[5]] = some (r, lab)
      ∧ r.length = 1 ∧ (∀ row ∈ r, row.length = 1 + cS2.layers.length)
      ∧ lab.length = 1 ∧ (∀ row ∈ lab, row.length = cS2.layers.length)
      ∧ lastCol r = lastCol lab := by
  refine sieve_transform_shape cS2 [[5]] 1 1 (by simp [cS2]) ?_ ?_ rfl ?_
  · intro k hk
    simp only [cS2, List.length_cons, List.length_nil] at hk
    interval_cases k
    · rfl
    · rfl
  · intro L hL m
    simp only [cS2, List.mem_cons, List.not_mem_nil, or_false] at hL
    rcases hL with rfl | rfl
    · simp [cL0, constCorex]
    · simp [cL1, constCorex]
  · intro row hr
    simp only [List.mem_cons, List.not_mem_nil, or_false] at hr
    subst hr
    rfl
